import Mathlib

/-!
Verification of the `createFastContext` store core (createFastContext.jsx).

The embedding mirrors the JavaScript source:

* a store state is a JS object, modelled as an association list of
  string keys (`Obj`); `{...cur, ...part}` is `spread cur part`;
* the store handle returned by `useStoreData` carries the current object
  (`store.current`) and the subscriber set (`subscribers.current`), a JS
  `Set` of callbacks modelled as an insertion-ordered duplicate-free list
  of callback identities (`Nat`);
* `set` replaces the current object with the spread merge and then runs
  `subscribers.current.forEach((callback) => callback())`; a callback is
  given behaviour as a list of primitive effects (`Action`): it may read
  the store (`get`) or invoke an unsubscribe closure.  `Set.forEach` on a
  live set whose only mutations are deletions visits, in insertion order,
  exactly the members that are still present when reached, which is how
  `notify` iterates (additions and nested `set` calls during notification
  are outside this model, matching the source where the demo callbacks
  are the host runtime's re-render triggers).
* `subscribe` is `Set.add` plus an unsubscribe closure performing
  `Set.delete`; `useStore` throws `Error('Store not found')` when the
  context value is null, otherwise reads `store.get()[key]` and writes
  `store.set({ [key]: value })`.
-/

namespace FastContext

/-- A JavaScript object with string keys, as an association list.  Keys are
unique in any object built by the source (`initialState` and spread merges
of objects with unique keys). -/
abbrev Obj (V : Type) := List (String × V)

/-- Property lookup `o[k]`: `some v` when key `k` is present with value `v`,
`none` when the key is absent. -/
def lookup {V : Type} (o : Obj V) (k : String) : Option V :=
  match o with
  | [] => none
  | (k', v) :: rest => if k' = k then some v else lookup rest k

/-- The JS spread merge `{...cur, ...part}`: the result keeps every key of
`cur` (in order), with its value overwritten by `part` when `part` has that
key, and appends the keys of `part` that `cur` lacks. -/
def spread {V : Type} (cur part : Obj V) : Obj V :=
  (cur.map (fun kv => (kv.1, (lookup part kv.1).getD kv.2)))
    ++ part.filter (fun kv => (lookup cur kv.1).isNone)

/-- Folding a sequence of `set` calls over a starting state: the state after
the whole sequence of spread merges. -/
def mergeAll {V : Type} (init : Obj V) (parts : List (Obj V)) : Obj V :=
  parts.foldl spread init

/-- An effect a subscriber callback may perform while being notified:
reading the store through `get`, or invoking an unsubscribe closure for
some callback identity. -/
inductive Action where
  | read : Action
  | unsub (target : Nat) : Action
deriving DecidableEq, Repr

/-- Whether a callback script mutates the subscriber set. -/
def mutatesSubs (acts : List Action) : Bool :=
  acts.any fun a => match a with
    | .unsub _ => true
    | .read => false

/-- An observable event of one `set` call: a callback being invoked, or a
callback observing the store value through `get`. -/
inductive Event (V : Type) where
  | invoked (c : Nat) : Event V
  | observed (c : Nat) (s : Obj V) : Event V
deriving DecidableEq

/-- The mutable cell pair of `useStoreData`: `store.current` (the current
object) and `subscribers.current` (the JS `Set` of callbacks, kept in
insertion order and duplicate-free). -/
structure StoreSt (V : Type) where
  current : Obj V
  subs : List Nat
deriving DecidableEq

/-- `get`: returns the current store object (`() => store.current`). -/
def StoreSt.get {V : Type} (st : StoreSt V) : Obj V :=
  st.current

/-- Run one callback's script of effects.  `read` records the store object
observed at that moment; `unsub t` performs `subscribers.current.delete(t)`
(the unsubscribe closure returned by `subscribe`). -/
def runActions {V : Type} (acts : List Action) (c : Nat) (st : StoreSt V) :
    StoreSt V × List (Event V) :=
  match acts with
  | [] => (st, [])
  | .read :: rest =>
      let r := runActions rest c st
      (r.1, Event.observed c st.current :: r.2)
  | .unsub t :: rest =>
      let r := runActions rest c { st with subs := st.subs.erase t }
      (r.1, r.2)

/-- Invoke one callback: record the invocation, then run its effects. -/
def invoke {V : Type} (beh : Nat → List Action) (c : Nat) (st : StoreSt V) :
    StoreSt V × List (Event V) :=
  let r := runActions (beh c) c st
  (r.1, Event.invoked c :: r.2)

/-- `subscribers.current.forEach((callback) => callback())`, iterating the
snapshot `order` of the set in insertion order and invoking each callback
that is still a member when reached (JS `forEach` skips elements deleted
before being visited; no effect in this model adds elements). -/
def notify {V : Type} (beh : Nat → List Action) (order : List Nat)
    (st : StoreSt V) : StoreSt V × List (Event V) :=
  match order with
  | [] => (st, [])
  | c :: rest =>
      if c ∈ st.subs then
        let r1 := invoke beh c st
        let r2 := notify beh rest r1.1
        (r2.1, r1.2 ++ r2.2)
      else
        notify beh rest st

/-- `set(value)`: replace `store.current` with the spread merge, then
notify every subscriber.  Returns the final state and the event trace of
the notification cascade. -/
def StoreSt.set {V : Type} (beh : Nat → List Action) (value : Obj V)
    (st : StoreSt V) : StoreSt V × List (Event V) :=
  let st1 : StoreSt V := { st with current := spread st.current value }
  notify beh st1.subs st1

/-- `subscribe(callback)`, first half: `subscribers.current.add(callback)`.
A JS `Set` keeps one entry per member, appending new members at the end of
the iteration order. -/
def StoreSt.subscribeCb {V : Type} (c : Nat) (st : StoreSt V) : StoreSt V :=
  if c ∈ st.subs then st else { st with subs := st.subs ++ [c] }

/-- The unsubscribe closure returned by `subscribe`:
`() => subscribers.current.delete(callback)`. -/
def StoreSt.unsubscribeCb {V : Type} (c : Nat) (st : StoreSt V) : StoreSt V :=
  { st with subs := st.subs.erase c }

/-- The error thrown by `useStore` outside a provider:
`throw new Error('Store not found')`. -/
inductive FcError where
  | storeNotFound : FcError
deriving DecidableEq

/-- `useStore(key)` read path: fails when the context value is null
(`if (!store) throw ...`), otherwise returns the snapshot
`store.get()[key]`. -/
def useStoreRead {V : Type} (ctx : Option (StoreSt V)) (key : String) :
    Except FcError (Option V) :=
  match ctx with
  | none => Except.error FcError.storeNotFound
  | some st => Except.ok (lookup (StoreSt.get st) key)

/-- The field binding's read: `() => store.get()[key]`. -/
def readValue {V : Type} (st : StoreSt V) (key : String) : Option V :=
  lookup (StoreSt.get st) key

/-- The field binding's setter: `(value) => store.set({ [key]: value })`. -/
def setValue {V : Type} (beh : Nat → List Action) (st : StoreSt V)
    (key : String) (v : V) : StoreSt V × List (Event V) :=
  StoreSt.set beh [(key, v)] st

/-! ### Object lookup and spread lemmas -/

theorem lookup_append {V : Type} (a b : Obj V) (k : String) :
    lookup (a ++ b) k = (lookup a k).or (lookup b k) := by
  induction a with
  | nil => simp [lookup]
  | cons kv rest ih =>
      obtain ⟨k', v⟩ := kv
      by_cases h : k' = k <;> simp [lookup, h, ih, Option.or]

theorem lookup_map_val {V : Type} (l : Obj V) (f : String → V → V) (k : String) :
    lookup (l.map fun kv => (kv.1, f kv.1 kv.2)) k = (lookup l k).map (f k) := by
  induction l with
  | nil => simp [lookup]
  | cons kv rest ih =>
      obtain ⟨k', v⟩ := kv
      by_cases h : k' = k
      · subst h; simp [lookup]
      · simp [lookup, h, ih]

theorem lookup_filter_key {V : Type} (l : Obj V) (p : String → Bool) (k : String) :
    lookup (l.filter fun kv => p kv.1) k = if p k then lookup l k else none := by
  induction l with
  | nil => simp [lookup]
  | cons kv rest ih =>
      obtain ⟨k', v⟩ := kv
      by_cases hp : p k'
      · by_cases h : k' = k
        · subst h; simp [lookup, hp]
        · simp [List.filter, lookup, hp, h, ih]
      · by_cases h : k' = k
        · subst h; simp [List.filter, lookup, hp, ih]
        · simp [List.filter, lookup, hp, h, ih]

/-- The single law of the JS spread merge: looking up `k` in
`{...cur, ...part}` gives `part`'s value when `part` has the key, else
`cur`'s value. -/
theorem lookup_spread {V : Type} (cur part : Obj V) (k : String) :
    lookup (spread cur part) k = (lookup part k).or (lookup cur k) := by
  unfold spread
  rw [lookup_append, lookup_map_val cur (fun k v => (lookup part k).getD v) k,
    lookup_filter_key part (fun k => (lookup cur k).isNone) k]
  cases hc : lookup cur k with
  | none =>
      cases hp : lookup part k <;> simp [hc, hp, Option.or]
  | some v =>
      cases hp : lookup part k <;> simp [hc, hp, Option.or]

/-- Merging the empty partial `{}` leaves the object unchanged. -/
theorem spread_nil {V : Type} (cur : Obj V) : spread cur [] = cur := by
  unfold spread
  simp [lookup]

/-- A key present before a spread merge is present after it. -/
theorem isSome_lookup_spread {V : Type} (cur part : Obj V) (k : String)
    (h : (lookup cur k).isSome) : (lookup (spread cur part) k).isSome := by
  rw [lookup_spread]
  cases hp : lookup part k <;> simp [Option.or, hp, h]

/-- Across any sequence of spread merges, a key present initially stays
present. -/
theorem isSome_lookup_mergeAll {V : Type} (parts : List (Obj V)) (init : Obj V)
    (k : String) (h : (lookup init k).isSome) :
    (lookup (mergeAll init parts) k).isSome := by
  induction parts generalizing init with
  | nil => exact h
  | cons p rest ih => exact ih (spread init p) (isSome_lookup_spread init p k h)

/-! ### Callback-script lemmas -/

theorem runActions_current {V : Type} (acts : List Action) (c : Nat)
    (st : StoreSt V) : (runActions acts c st).1.current = st.current := by
  induction acts generalizing st with
  | nil => rfl
  | cons a rest ih =>
      cases a with
      | read => simpa [runActions] using ih st
      | unsub t => simpa [runActions] using ih { st with subs := st.subs.erase t }

theorem runActions_subs_subset {V : Type} (acts : List Action) (c : Nat)
    (st : StoreSt V) : (runActions acts c st).1.subs ⊆ st.subs := by
  induction acts generalizing st with
  | nil => exact fun _ h => h
  | cons a rest ih =>
      cases a with
      | read => simpa [runActions] using ih st
      | unsub t =>
          intro x hx
          have := ih { st with subs := st.subs.erase t } (by simpa [runActions] using hx)
          exact List.erase_subset t st.subs this

theorem runActions_nodup {V : Type} (acts : List Action) (c : Nat)
    (st : StoreSt V) (h : st.subs.Nodup) : (runActions acts c st).1.subs.Nodup := by
  induction acts generalizing st with
  | nil => exact h
  | cons a rest ih =>
      cases a with
      | read => simpa [runActions] using ih st h
      | unsub t =>
          simpa [runActions] using ih { st with subs := st.subs.erase t } (h.erase t)

theorem runActions_no_invoked {V : Type} (acts : List Action) (c x : Nat)
    (st : StoreSt V) : Event.invoked x ∉ (runActions acts c st).2 := by
  induction acts generalizing st with
  | nil => simp [runActions]
  | cons a rest ih =>
      cases a with
      | read =>
          intro hmem
          exact ih st (by simpa [runActions] using hmem)
      | unsub t =>
          intro hmem
          exact ih { st with subs := st.subs.erase t } (by simpa [runActions] using hmem)

theorem runActions_observed {V : Type} (acts : List Action) (c x : Nat)
    (s : Obj V) (st : StoreSt V)
    (h : Event.observed x s ∈ (runActions acts c st).2) : s = st.current := by
  induction acts generalizing st with
  | nil => simp [runActions] at h
  | cons a rest ih =>
      cases a with
      | read =>
          have h2 : (x = c ∧ s = st.current) ∨
              Event.observed x s ∈ (runActions rest c st).2 := by
            simpa [runActions] using h
          rcases h2 with ⟨_, hs⟩ | h2
          · exact hs
          · exact ih st h2
      | unsub t =>
          exact ih { st with subs := st.subs.erase t } (by simpa [runActions] using h)

theorem runActions_of_not_mutates {V : Type} (acts : List Action) (c : Nat)
    (st : StoreSt V) (h : mutatesSubs acts = false) :
    (runActions acts c st).1 = st := by
  induction acts generalizing st with
  | nil => rfl
  | cons a rest ih =>
      cases a with
      | read =>
          have h' : mutatesSubs rest = false := by simpa [mutatesSubs] using h
          simpa [runActions] using ih st h'
      | unsub t => simp [mutatesSubs] at h

theorem runActions_mem_of_not_unsub {V : Type} (acts : List Action) (c a : Nat)
    (st : StoreSt V) (hnot : Action.unsub a ∉ acts) (hmem : a ∈ st.subs) :
    a ∈ (runActions acts c st).1.subs := by
  induction acts generalizing st with
  | nil => exact hmem
  | cons act rest ih =>
      cases act with
      | read =>
          have : Action.unsub a ∉ rest := fun h => hnot (List.mem_cons_of_mem _ h)
          simpa [runActions] using ih st this hmem
      | unsub t =>
          have hne : t ≠ a := by
            intro h; subst h; exact hnot (List.mem_cons_self _ _)
          have hrest : Action.unsub a ∉ rest := fun h => hnot (List.mem_cons_of_mem _ h)
          have : a ∈ st.subs.erase t := (List.mem_erase_of_ne (Ne.symm hne)).mpr hmem
          simpa [runActions] using ih { st with subs := st.subs.erase t } hrest this

theorem runActions_not_mem_of_unsub {V : Type} (acts : List Action) (c b : Nat)
    (st : StoreSt V) (hnodup : st.subs.Nodup) (hin : Action.unsub b ∈ acts) :
    b ∉ (runActions acts c st).1.subs := by
  induction acts generalizing st with
  | nil => simp at hin
  | cons act rest ih =>
      cases act with
      | read =>
          have hin' : Action.unsub b ∈ rest := by
            rcases List.mem_cons.mp hin with h | h
            · exact Action.noConfusion h
            · exact h
          simpa [runActions] using ih st hnodup hin'
      | unsub t =>
          by_cases ht : t = b
          · have hni : b ∉ st.subs.erase t := by
              rw [ht]; exact hnodup.not_mem_erase
            intro hmem
            exact hni (runActions_subs_subset rest c
              { st with subs := st.subs.erase t } (by simpa [runActions] using hmem))
          · have hin' : Action.unsub b ∈ rest := by
              rcases List.mem_cons.mp hin with h | h
              · cases h; exact absurd rfl ht
              · exact h
            simpa [runActions] using
              ih { st with subs := st.subs.erase t } (hnodup.erase t) hin'

/-! ### Notification-pass lemmas -/

theorem notify_current {V : Type} (beh : Nat → List Action) (order : List Nat)
    (st : StoreSt V) : (notify beh order st).1.current = st.current := by
  induction order generalizing st with
  | nil => rfl
  | cons c rest ih =>
      by_cases hc : c ∈ st.subs
      · simpa [notify, invoke, hc] using
          (ih (runActions (beh c) c st).1).trans (runActions_current (beh c) c st)
      · simpa [notify, hc] using ih st

theorem notify_subs_subset {V : Type} (beh : Nat → List Action)
    (order : List Nat) (st : StoreSt V) :
    (notify beh order st).1.subs ⊆ st.subs := by
  induction order generalizing st with
  | nil => exact fun _ h => h
  | cons c rest ih =>
      by_cases hc : c ∈ st.subs
      · intro x hx
        have hx' : x ∈ (runActions (beh c) c st).1.subs :=
          ih (runActions (beh c) c st).1 (by simpa [notify, invoke, hc] using hx)
        exact runActions_subs_subset (beh c) c st hx'
      · intro x hx
        exact ih st (by simpa [notify, hc] using hx)

/-- A callback that is not in the live subscriber set is never invoked by
the rest of the pass (the only mutation anywhere is `Set.delete`). -/
theorem notify_not_invoked {V : Type} (beh : Nat → List Action)
    (order : List Nat) (st : StoreSt V) (c : Nat) (hc : c ∉ st.subs) :
    Event.invoked c ∉ (notify beh order st).2 := by
  induction order generalizing st with
  | nil => simp [notify]
  | cons d rest ih =>
      by_cases hd : d ∈ st.subs
      · have hdc : d ≠ c := fun h => hc (h ▸ hd)
        intro hmem
        have hmem' : Event.invoked c ∈
            (Event.invoked d :: (runActions (beh d) d st).2) ++
              (notify beh rest (runActions (beh d) d st).1).2 := by
          simpa [notify, invoke, hd] using hmem
        rcases List.mem_append.mp hmem' with h | h
        · rcases List.mem_cons.mp h with h | h
          · exact hdc (by cases h; rfl)
          · exact runActions_no_invoked (beh d) d c st h
        · have hc' : c ∉ (runActions (beh d) d st).1.subs :=
            fun hmem2 => hc (runActions_subs_subset (beh d) d st hmem2)
          exact ih (runActions (beh d) d st).1 hc' h
      · intro hmem
        exact ih st hc (by simpa [notify, hd] using hmem)

/-- Every `get` observation made by a callback during the pass sees the
state the pass started with (no effect in the model rewrites `current`). -/
theorem notify_observed {V : Type} (beh : Nat → List Action)
    (order : List Nat) (st : StoreSt V) (x : Nat) (s : Obj V)
    (h : Event.observed x s ∈ (notify beh order st).2) : s = st.current := by
  induction order generalizing st with
  | nil => simp [notify] at h
  | cons d rest ih =>
      by_cases hd : d ∈ st.subs
      · have h' : Event.observed x s ∈
            (Event.invoked d :: (runActions (beh d) d st).2) ++
              (notify beh rest (runActions (beh d) d st).1).2 := by
          simpa [notify, invoke, hd] using h
        rcases List.mem_append.mp h' with h2 | h2
        · rcases List.mem_cons.mp h2 with h3 | h3
          · exact Event.noConfusion h3
          · exact runActions_observed (beh d) d x s st h3
        · exact (ih (runActions (beh d) d st).1 h2).trans
            (runActions_current (beh d) d st)
      · exact ih st (by simpa [notify, hd] using h)

/-- An invocation event can only name a callback listed in the iteration
order. -/
theorem notify_invoked_of_mem {V : Type} (beh : Nat → List Action)
    (order : List Nat) (st : StoreSt V) (c : Nat)
    (h : Event.invoked c ∈ (notify beh order st).2) : c ∈ order := by
  induction order generalizing st with
  | nil => simp [notify] at h
  | cons d rest ih =>
      by_cases hd : d ∈ st.subs
      · have h' : Event.invoked c ∈
            (Event.invoked d :: (runActions (beh d) d st).2) ++
              (notify beh rest (runActions (beh d) d st).1).2 := by
          simpa [notify, invoke, hd] using h
        rcases List.mem_append.mp h' with h2 | h2
        · rcases List.mem_cons.mp h2 with h3 | h3
          · cases h3; exact List.mem_cons_self _ _
          · exact absurd h3 (runActions_no_invoked (beh d) d c st)
        · exact List.mem_cons_of_mem _ (ih (runActions (beh d) d st).1 h2)
      · exact List.mem_cons_of_mem _ (ih st (by simpa [notify, hd] using h))

/-- When no callback in the iteration order mutates the subscriber set,
every callback of the (duplicate-free) order that is in the live set is
invoked exactly once. -/
theorem notify_count_invoked_one {V : Type} [DecidableEq V]
    (beh : Nat → List Action) (order : List Nat) (st : StoreSt V) (c : Nat)
    (hnodup : order.Nodup)
    (hpure : ∀ d ∈ order, mutatesSubs (beh d) = false)
    (hsub : ∀ d ∈ order, d ∈ st.subs)
    (hc : c ∈ order) :
    ((notify beh order st).2).count (Event.invoked c) = 1 := by
  induction order generalizing st with
  | nil => simp at hc
  | cons d rest ih =>
      have hd : d ∈ st.subs := hsub d (List.mem_cons_self _ _)
      have hst1 : (runActions (beh d) d st).1 = st :=
        runActions_of_not_mutates (beh d) d st (hpure d (List.mem_cons_self _ _))
      have htrace : (notify beh (d :: rest) st).2 =
          (Event.invoked d :: (runActions (beh d) d st).2) ++
            (notify beh rest (runActions (beh d) d st).1).2 := by
        simp [notify, invoke, hd]
      have hrun0 : ((runActions (beh d) d st).2).count (Event.invoked c) = 0 :=
        List.count_eq_zero.mpr (runActions_no_invoked (beh d) d c st)
      by_cases hcd : c = d
      · have hcrest : c ∉ rest := hcd ▸ (List.nodup_cons.mp hnodup).1
        have hrest0 : ((notify beh rest (runActions (beh d) d st).1).2).count
            (Event.invoked c) = 0 :=
          List.count_eq_zero.mpr fun hmem =>
            hcrest (notify_invoked_of_mem beh rest _ c hmem)
        subst hcd
        rw [htrace]
        simp [List.count_append, List.count_cons, hrun0, hrest0]
      · have hcrest : c ∈ rest := by
          rcases List.mem_cons.mp hc with h | h
          · exact absurd h hcd
          · exact h
        have hrest1 : ((notify beh rest (runActions (beh d) d st).1).2).count
            (Event.invoked c) = 1 := by
          rw [hst1]
          exact ih st (List.nodup_cons.mp hnodup).2
            (fun x hx => hpure x (List.mem_cons_of_mem _ hx))
            (fun x hx => hsub x (List.mem_cons_of_mem _ hx)) hcrest
        rw [htrace]
        simp [List.count_append, List.count_cons, hrun0, hrest1, hcd]

/-- If, mid-pass, the still-subscribed callback `A` carries an unsubscribe
of `B` in its script, and no callback visited before `A` unsubscribes `A`,
then `B` — listed after `A` in the iteration order — is never invoked. -/
theorem notify_unsub_mid {V : Type} (beh : Nat → List Action) (A B : Nat)
    (l1 l2 : List Nat) (st : StoreSt V)
    (hnodup : st.subs.Nodup) (hBA : B ≠ A) (hBl1 : B ∉ l1)
    (hl1 : ∀ d ∈ l1, Action.unsub A ∉ beh d)
    (hA : A ∈ st.subs) (hunsub : Action.unsub B ∈ beh A) :
    Event.invoked B ∉ (notify beh (l1 ++ A :: l2) st).2 := by
  induction l1 generalizing st with
  | nil =>
      intro hmem
      have h' : Event.invoked B ∈
          (Event.invoked A :: (runActions (beh A) A st).2) ++
            (notify beh l2 (runActions (beh A) A st).1).2 := by
        simpa [notify, invoke, hA] using hmem
      rcases List.mem_append.mp h' with h2 | h2
      · rcases List.mem_cons.mp h2 with h3 | h3
        · exact hBA (by cases h3; rfl)
        · exact runActions_no_invoked (beh A) A B st h3
      · have hBout : B ∉ (runActions (beh A) A st).1.subs :=
          runActions_not_mem_of_unsub (beh A) A B st hnodup hunsub
        exact notify_not_invoked beh l2 _ B hBout h2
  | cons d l1' ih =>
      have hBd : B ≠ d := fun h => hBl1 (h ▸ List.mem_cons_self _ _)
      by_cases hd : d ∈ st.subs
      · intro hmem
        have h' : Event.invoked B ∈
            (Event.invoked d :: (runActions (beh d) d st).2) ++
              (notify beh (l1' ++ A :: l2) (runActions (beh d) d st).1).2 := by
          simpa [notify, invoke, hd] using hmem
        rcases List.mem_append.mp h' with h2 | h2
        · rcases List.mem_cons.mp h2 with h3 | h3
          · exact hBd (by cases h3; rfl)
          · exact runActions_no_invoked (beh d) d B st h3
        · have hnodup' : (runActions (beh d) d st).1.subs.Nodup :=
            runActions_nodup (beh d) d st hnodup
          have hA' : A ∈ (runActions (beh d) d st).1.subs :=
            runActions_mem_of_not_unsub (beh d) d A st
              (hl1 d (List.mem_cons_self _ _)) hA
          exact ih (runActions (beh d) d st).1 hnodup'
            (fun hx => hBl1 (List.mem_cons_of_mem _ hx))
            (fun x hx => hl1 x (List.mem_cons_of_mem _ hx)) hA' h2
      · intro hmem
        exact ih st hnodup (fun hx => hBl1 (List.mem_cons_of_mem _ hx))
          (fun x hx => hl1 x (List.mem_cons_of_mem _ hx)) hA
          (by simpa [notify, hd] using hmem)

theorem set_def {V : Type} (beh : Nat → List Action) (part : Obj V)
    (st : StoreSt V) :
    StoreSt.set beh part st =
      notify beh st.subs { st with current := spread st.current part } := rfl

theorem set_current {V : Type} (beh : Nat → List Action) (part : Obj V)
    (st : StoreSt V) :
    (StoreSt.set beh part st).1.current = spread st.current part := by
  rw [set_def]
  exact notify_current beh st.subs { st with current := spread st.current part }

theorem subscribeCb_mem {V : Type} (c : Nat) (st : StoreSt V) :
    c ∈ (st.subscribeCb c).subs := by
  unfold StoreSt.subscribeCb
  by_cases h : c ∈ st.subs <;> simp [h]

theorem subscribeCb_nodup {V : Type} (c : Nat) (st : StoreSt V)
    (h : st.subs.Nodup) : (st.subscribeCb c).subs.Nodup := by
  unfold StoreSt.subscribeCb
  by_cases hc : c ∈ st.subs
  · simpa [hc] using h
  · simp only [hc, if_neg, ite_false]
    exact List.nodup_append.mpr ⟨h, List.nodup_singleton c,
      fun x hx hx' => hc ((List.mem_singleton.mp hx') ▸ hx)⟩

/-! ### Shared concrete inputs for the witnesses -/

/-- A sample store: demo-like state with two live subscribers. -/
def stW : StoreSt Nat := { current := [("first", 10), ("count", 0)], subs := [0, 1] }

/-- Callback behaviour where every callback reads the store once. -/
def behR : Nat → List Action := fun _ => [Action.read]

/-- A sample one-key partial update. -/
def partW : Obj Nat := [("count", 5)]

/-- Callback behaviour where callback `0` unsubscribes callback `1`. -/
def behU : Nat → List Action := fun n => if n = 0 then [Action.unsub 1] else [Action.read]

/-! ### The claims -/

/-- C1: `set(partial)` computes exactly `{...currentState, ...partial}` and
replaces the current state with it; a key of the partial takes the
partial's value, any other key keeps its previous value, and across any
sequence of merges every key of the initial mapping remains present. -/
theorem claim_C1 {V : Type} (beh : Nat → List Action) (st : StoreSt V)
    (part : Obj V) (k : String) (init : Obj V) (parts : List (Obj V)) :
    (StoreSt.set beh part st).1.current = spread st.current part ∧
    lookup (spread st.current part) k = (lookup part k).or (lookup st.current k) ∧
    ((lookup init k).isSome → (lookup (mergeAll init parts) k).isSome) :=
  ⟨set_current beh part st, lookup_spread st.current part k,
    isSome_lookup_mergeAll parts init k⟩

/-- C1 witness at a concrete store, partial and merge sequence. -/
theorem claim_C1_witness :
    (StoreSt.set behR partW stW).1.current = spread stW.current partW ∧
    lookup (spread stW.current partW) "count" =
      (lookup partW "count").or (lookup stW.current "count") ∧
    ((lookup [("count", (0 : Nat))] "count").isSome →
      (lookup (mergeAll [("count", 0)] [partW, [("first", 7)]]) "count").isSome) :=
  claim_C1 behR stW partW "count" [("count", 0)] [partW, [("first", 7)]]

/-- C2: `set({k: v})` followed immediately by `get()` yields a mapping
whose value at `k` is `v`. -/
theorem claim_C2 {V : Type} (beh : Nat → List Action) (st : StoreSt V)
    (k : String) (v : V) :
    lookup (StoreSt.get (StoreSt.set beh [(k, v)] st).1) k = some v := by
  show lookup (StoreSt.set beh [(k, v)] st).1.current k = some v
  rw [set_current, lookup_spread]
  simp [lookup, Option.or]

/-- C4: within one `set` call the state replacement happens before any
subscriber notification — every store value observed by a callback during
the notification pass is the new merged state, never the pre-merge
state. -/
theorem claim_C4 {V : Type} (beh : Nat → List Action) (st : StoreSt V)
    (part : Obj V) (c : Nat) (s : Obj V)
    (hobs : Event.observed c s ∈ (StoreSt.set beh part st).2) :
    s = spread st.current part ∧
    (StoreSt.set beh part st).1.current = spread st.current part := by
  refine ⟨?_, set_current beh part st⟩
  rw [set_def] at hobs
  exact notify_observed beh st.subs _ c s hobs

/-- C4 witness: callback `0`'s observation during a concrete merge is the
merged state. -/
theorem claim_C4_witness :
    spread stW.current partW = spread stW.current partW ∧
    (StoreSt.set behR partW stW).1.current = spread stW.current partW :=
  claim_C4 behR stW partW 0 (spread stW.current partW) (by decide)

/-- C6: the field accessor fails with the missing-store error if and only
if no store is available in the calling context; when a store is available
it returns the snapshot and never fails. -/
theorem claim_C6 {V : Type} (ctx : Option (StoreSt V)) (key : String) :
    (useStoreRead ctx key = Except.error FcError.storeNotFound ↔ ctx = none) ∧
    (∀ st, ctx = some st →
      useStoreRead ctx key = Except.ok (lookup (StoreSt.get st) key)) := by
  cases ctx with
  | none => exact ⟨by simp [useStoreRead], fun st h => Option.noConfusion h⟩
  | some st =>
      refine ⟨⟨fun h => ?_, fun h => Option.noConfusion h⟩, fun st' h => ?_⟩
      · exact absurd h (by simp [useStoreRead])
      · cases h; rfl

/-- C6 witness: outside a provider the accessor fails, inside it
succeeds. -/
theorem claim_C6_witness :
    ((useStoreRead (none : Option (StoreSt Nat)) "count" =
        Except.error FcError.storeNotFound ↔
      (none : Option (StoreSt Nat)) = none) ∧
    (∀ st, (none : Option (StoreSt Nat)) = some st →
      useStoreRead (none : Option (StoreSt Nat)) "count" =
        Except.ok (lookup (StoreSt.get st) "count"))) :=
  claim_C6 (none : Option (StoreSt Nat)) "count"

/-- C8: the binding's setter is exactly the single-field merge
`store.set({[key]: v})`, its read is exactly `store.get()[key]` with no
cache, read-after-write on the binding returns the written value, and no
other key is touched. -/
theorem claim_C8 {V : Type} (beh : Nat → List Action) (st : StoreSt V)
    (key : String) (v : V) (k : String) :
    setValue beh st key v = StoreSt.set beh [(key, v)] st ∧
    readValue st key = lookup (StoreSt.get st) key ∧
    readValue (setValue beh st key v).1 key = some v ∧
    (k ≠ key → readValue (setValue beh st key v).1 k = readValue st k) := by
  refine ⟨rfl, rfl, ?_, fun hk => ?_⟩
  · show lookup (StoreSt.set beh [(key, v)] st).1.current key = some v
    rw [set_current, lookup_spread]
    simp [lookup, Option.or]
  · show lookup (StoreSt.set beh [(key, v)] st).1.current k =
      lookup st.current k
    rw [set_current, lookup_spread]
    have : lookup [(key, v)] k = none := by
      simp [lookup, Ne.symm hk]
    simp [this, Option.or]

/-- C8 witness: writing `"count" := 5` through the binding, reading it
back gives `5` and the key `"first"` is untouched. -/
theorem claim_C8_witness :
    (setValue behR stW "count" 5 = StoreSt.set behR [("count", 5)] stW ∧
    readValue stW "count" = lookup (StoreSt.get stW) "count" ∧
    readValue (setValue behR stW "count" 5).1 "count" = some 5 ∧
    ("first" ≠ "count" →
      readValue (setValue behR stW "count" 5).1 "first" = readValue stW "first")) :=
  claim_C8 behR stW "count" 5 "first"

/-- C3: under the precondition that no callback mutates the subscriber set
during the pass, every callback in the (duplicate-free) subscriber set at
the start of a `set` call is invoked exactly once before `set` returns,
whatever the partial is. -/
theorem claim_C3 {V : Type} [DecidableEq V] (beh : Nat → List Action)
    (st : StoreSt V) (part : Obj V) (c : Nat)
    (hnodup : st.subs.Nodup)
    (hpure : ∀ d ∈ st.subs, mutatesSubs (beh d) = false)
    (hc : c ∈ st.subs) :
    ((StoreSt.set beh part st).2).count (Event.invoked c) = 1 := by
  rw [set_def]
  exact notify_count_invoked_one beh st.subs
    { st with current := spread st.current part } c hnodup hpure
    (fun d hd => hd) hc

/-- C3 witness: with two read-only subscribers, callback `0` is invoked
exactly once by a concrete merge. -/
theorem claim_C3_witness :
    0 ∈ stW.subs ∧
    ((StoreSt.set behR partW stW).2).count (Event.invoked 0) = 1 :=
  ⟨by decide, claim_C3 behR stW partW 0 (by decide) (by decide) (by decide)⟩

/-- C5: the unsubscribe closure removes exactly its callback — the
callback leaves the set and no later `set` call invokes it, every other
callback's membership is unchanged, and running the closure a second time
is a no-op on the whole store. -/
theorem claim_C5 {V : Type} (st : StoreSt V) (c : Nat)
    (hnodup : st.subs.Nodup) :
    c ∉ (st.unsubscribeCb c).subs ∧
    (∀ d, d ≠ c → (d ∈ (st.unsubscribeCb c).subs ↔ d ∈ st.subs)) ∧
    (st.unsubscribeCb c).unsubscribeCb c = st.unsubscribeCb c ∧
    (∀ beh part, Event.invoked c ∉ (StoreSt.set beh part (st.unsubscribeCb c)).2) := by
  refine ⟨hnodup.not_mem_erase, fun d hd => List.mem_erase_of_ne hd, ?_, ?_⟩
  · show ({ current := st.current, subs := (st.subs.erase c).erase c } : StoreSt V) =
      { current := st.current, subs := st.subs.erase c }
    rw [List.erase_of_not_mem hnodup.not_mem_erase]
  · intro beh part
    rw [set_def]
    exact notify_not_invoked beh _ _ c hnodup.not_mem_erase

/-- C5 witness at a concrete store: unsubscribing callback `0`. -/
theorem claim_C5_witness :
    0 ∉ (stW.unsubscribeCb 0).subs ∧
    (∀ d, d ≠ 0 → (d ∈ (stW.unsubscribeCb 0).subs ↔ d ∈ stW.subs)) ∧
    (stW.unsubscribeCb 0).unsubscribeCb 0 = stW.unsubscribeCb 0 ∧
    (∀ beh part,
      Event.invoked 0 ∉ (StoreSt.set beh part (stW.unsubscribeCb 0)).2) :=
  claim_C5 stW 0 (by decide)

/-- C7: if during the notification pass the callback `A` — still
subscribed when reached, listed before `B`, and not unsubscribed by any
earlier callback — unsubscribes the not-yet-invoked callback `B`, then `B`
is never invoked during that pass. -/
theorem claim_C7 {V : Type} (beh : Nat → List Action) (st : StoreSt V)
    (part : Obj V) (A B : Nat) (l1 l2 : List Nat)
    (horder : st.subs = l1 ++ A :: l2)
    (hnodup : st.subs.Nodup)
    (hB : B ∈ l2)
    (hunsub : Action.unsub B ∈ beh A)
    (hAlive : ∀ d ∈ l1, Action.unsub A ∉ beh d) :
    Event.invoked B ∉ (StoreSt.set beh part st).2 := by
  rw [set_def]
  have hnodup2 : (l1 ++ A :: l2).Nodup := horder ▸ hnodup
  have hd := List.nodup_append.mp hnodup2
  have hBA : B ≠ A := by
    intro h
    exact (List.nodup_cons.mp hd.2.1).1 (h ▸ hB)
  have hBl1 : B ∉ l1 := fun hm => hd.2.2 hm (List.mem_cons_of_mem _ hB)
  have hA : A ∈ st.subs := by
    rw [horder]
    exact List.mem_append.mpr (Or.inr (List.mem_cons_self _ _))
  have := notify_unsub_mid beh A B l1 l2
    { st with current := spread st.current part } hnodup hBA hBl1 hAlive hA hunsub
  rw [horder] at this ⊢
  exact this

/-- C7 witness: callback `0` unsubscribes callback `1` mid-pass, and `1`
is not invoked. -/
theorem claim_C7_witness :
    Event.invoked 1 ∉ (StoreSt.set behU partW stW).2 :=
  claim_C7 behU stW partW 0 1 [] [1] (by decide) (by decide) (by decide)
    (by decide) (by decide)

/-- C9: the notification cascade is unconditional — with an empty partial
(or any value-preserving partial) every subscriber is still invoked, and
the empty merge leaves the state unchanged: the core never compares old
and new values to skip notification. -/
theorem claim_C9 {V : Type} [DecidableEq V] (beh : Nat → List Action)
    (st : StoreSt V) (c : Nat)
    (hnodup : st.subs.Nodup)
    (hpure : ∀ d ∈ st.subs, mutatesSubs (beh d) = false)
    (hc : c ∈ st.subs) :
    (∀ part : Obj V, Event.invoked c ∈ (StoreSt.set beh part st).2) ∧
    (StoreSt.set beh ([] : Obj V) st).1.current = st.current := by
  constructor
  · intro part
    have h1 : ((StoreSt.set beh part st).2).count (Event.invoked c) = 1 := by
      rw [set_def]
      exact notify_count_invoked_one beh st.subs
        { st with current := spread st.current part } c hnodup hpure
        (fun d hd => hd) hc
    by_contra hmem
    rw [List.count_eq_zero.mpr hmem] at h1
    exact Nat.noConfusion h1
  · rw [set_current, spread_nil]

/-- C9 witness: the empty merge `set({})` still invokes callback `1` and
leaves the concrete state unchanged. -/
theorem claim_C9_witness :
    (∀ part : Obj Nat, Event.invoked 1 ∈ (StoreSt.set behR part stW).2) ∧
    (StoreSt.set behR ([] : Obj Nat) stW).1.current = stW.current :=
  claim_C9 behR stW 1 (by decide) (by decide) (by decide)

/-- C10: subscribing the same callback twice is idempotent — the set holds
one entry, a merge with non-mutating callbacks invokes it once, and the
unsubscribe closure (the same for both calls) removes it entirely, after
which no merge invokes it. -/
theorem claim_C10 {V : Type} [DecidableEq V] (st : StoreSt V) (c : Nat)
    (hnodup : st.subs.Nodup) :
    (st.subscribeCb c).subscribeCb c = st.subscribeCb c ∧
    (st.subscribeCb c).subs.count c = 1 ∧
    (∀ beh part, (∀ d ∈ (st.subscribeCb c).subs, mutatesSubs (beh d) = false) →
      ((StoreSt.set beh part (st.subscribeCb c)).2).count (Event.invoked c) = 1) ∧
    c ∉ ((st.subscribeCb c).unsubscribeCb c).subs ∧
    (∀ beh part,
      Event.invoked c ∉ (StoreSt.set beh part ((st.subscribeCb c).unsubscribeCb c)).2) := by
  have hmem : c ∈ (st.subscribeCb c).subs := subscribeCb_mem c st
  have hnodup' : (st.subscribeCb c).subs.Nodup := subscribeCb_nodup c st hnodup
  refine ⟨?_, ?_, ?_, ?_, ?_⟩
  · show (if c ∈ (st.subscribeCb c).subs then st.subscribeCb c
      else { st.subscribeCb c with subs := (st.subscribeCb c).subs ++ [c] }) =
      st.subscribeCb c
    rw [if_pos hmem]
  · exact List.count_eq_one_of_mem hnodup' hmem
  · intro beh part hpure
    rw [set_def]
    exact notify_count_invoked_one beh (st.subscribeCb c).subs _ c hnodup' hpure
      (fun d hd => hd) hmem
  · exact hnodup'.not_mem_erase
  · intro beh part
    rw [set_def]
    exact notify_not_invoked beh _ _ c hnodup'.not_mem_erase

/-- C10 witness: double-subscribing a fresh callback `2` on the concrete
store. -/
theorem claim_C10_witness :
    (stW.subscribeCb 2).subscribeCb 2 = stW.subscribeCb 2 ∧
    (stW.subscribeCb 2).subs.count 2 = 1 ∧
    (∀ beh part, (∀ d ∈ (stW.subscribeCb 2).subs, mutatesSubs (beh d) = false) →
      ((StoreSt.set beh part (stW.subscribeCb 2)).2).count (Event.invoked 2) = 1) ∧
    2 ∉ ((stW.subscribeCb 2).unsubscribeCb 2).subs ∧
    (∀ beh part,
      Event.invoked 2 ∉ (StoreSt.set beh part ((stW.subscribeCb 2).unsubscribeCb 2)).2) :=
  claim_C10 stW 2 (by decide)

end FastContext
